import Mathlib

/-!
Verification of the data-cleaning and aggregation pipeline of the Ramadan
campaign dashboard (`src/streamlit_app.py`).

The pipeline is shallowly embedded: column headers are strings, a raw CSV row
holds the cell values of the six canonical fields, and the cleaning steps of
the upload block (header normalization, required-column check, date
conversion, engagement fill) are translated step for step.  Aggregations
(`groupby ... sum`, `sort_values`, `nlargest`) and the sidebar filters are
embedded over a normalized record type.
-/

namespace Ramadan

/-- A cell value as the CSV reader materialises it: a number, or a piece of
text that did not parse as a number.  A missing cell (pandas `NaN`) is
`Option.none` at the use sites. -/
inductive CellVal where
  | num (n : Int)
  | str (s : String)
deriving DecidableEq

/-- One raw CSV row, holding the cell values of the six canonical fields.
The `date` cell is kept as raw text (its parse is attempted during cleaning);
the `engagements` cell is `none` when the cell is empty/missing. -/
structure RawRow where
  dateCell : String
  platformCell : String
  sentimentCell : String
  locationCell : String
  engCell : Option CellVal
  mediaTypeCell : String
deriving DecidableEq

/-- The parse of an uploaded CSV: the original column headers plus the rows. -/
structure RawTable where
  headers : List String
  rows : List RawRow
deriving DecidableEq

/-- A record of the cleaned dataset.  `date` is an abstract calendar date
(totally ordered, encoded as an integer); `engagements` is the cell value
after the fill step (`fillna(0)`), which fills missing cells only, so a
non-numeric text cell survives as text. -/
structure CleanRow where
  date : Int
  platform : String
  sentiment : String
  location : String
  engagements : CellVal
  media_type : String
deriving DecidableEq

/-- Failure states of cleaning.  `MissingColumns` and `DateError` are the two
failures the code can produce (lines 348-363 of `streamlit_app.py`; both set
`df = None`).  `EmptyAfterCleaning` is the further state named by the spec's
error taxonomy (§7); it is included so that statements about it can be made,
and the embedded `clean` never produces it, mirroring the code. -/
inductive CleaningError where
  | MissingColumns (missing : List String)
  | DateError
  | EmptyAfterCleaning
deriving DecidableEq

/-- Python `str.strip()` on a list of characters: drop whitespace from both
ends. -/
def stripChars (l : List Char) : List Char :=
  ((l.dropWhile Char.isWhitespace).reverse.dropWhile Char.isWhitespace).reverse

/-- The header normalization of line 344:
`col.strip().replace(' ', '_').lower()` — trim, replace every space by an
underscore, lower-case. -/
def normalizeHeader (s : String) : String :=
  String.mk (((stripChars s.toList).map fun c => if c = ' ' then '_' else c).map Char.toLower)

/-- The six canonical column names (line 347). -/
def requiredColumns : List String :=
  ["date", "platform", "sentiment", "location", "engagements", "media_type"]

/-- The table's headers after normalization (`df.columns` post line 344). -/
def normalizedHeaders (t : RawTable) : List String :=
  t.headers.map normalizeHeader

/-- `[col for col in required_columns if col not in df.columns]` (line 349). -/
def missingOf (t : RawTable) : List String :=
  requiredColumns.filter fun c => decide (c ∉ normalizedHeaders t)

/-- The date conversion of line 359, `pd.to_datetime(df['date'])`:
parse every row's date cell; if any cell fails, the whole conversion fails
(the pandas call raises, and the `except` invalidates the dataframe).
On success each row is paired with its parsed date. -/
def convertDates (pd : String → Option Int) : List RawRow → Option (List (Int × RawRow))
  | [] => some []
  | r :: rs =>
    match pd r.dateCell, convertDates pd rs with
    | some d, some l => some ((d, r) :: l)
    | _, _ => none

/-- Assemble a cleaned record from a date-converted row, applying the
engagement fill of line 369 (`fillna(0)`): a missing cell becomes the number
0, a present cell is kept unchanged. -/
def fillRow (dr : Int × RawRow) : CleanRow :=
  { date := dr.1
    platform := dr.2.platformCell
    sentiment := dr.2.sentimentCell
    location := dr.2.locationCell
    engagements := dr.2.engCell.getD (CellVal.num 0)
    media_type := dr.2.mediaTypeCell }

/-- The cleaning pipeline of lines 344-373, with the lenient date parser as a
parameter (the code delegates it to `pd.to_datetime`).  On success it returns
the cleaned dataset together with the reported fill count
(`initial_na_engagements`, the number of missing engagement cells). -/
def clean (pd : String → Option Int) (t : RawTable) :
    Except CleaningError (List CleanRow × Nat) :=
  if (missingOf t).isEmpty then
    match convertDates pd t.rows with
    | none => .error .DateError
    | some drs =>
      .ok (drs.map fillRow, (drs.filter fun dr => dr.2.engCell.isNone).length)
  else .error (.MissingColumns (missingOf t))

/-- Split a character list at every dash. -/
def splitDash : List Char → List (List Char)
  | [] => [[]]
  | c :: rest =>
    let r := splitDash rest
    if c = '-' then [] :: r
    else
      match r with
      | [] => [[c]]
      | h :: t => (c :: h) :: t

/-- Read a non-empty all-digit character list as a number. -/
def digitsToNat : List Char → Option Nat
  | [] => none
  | l =>
    l.foldl
      (fun acc c =>
        match acc with
        | some a => if c.isDigit then some (a * 10 + (c.toNat - 48)) else none
        | none => none)
      (some 0)

/-- A concrete lenient date parser accepting `YYYY-MM-DD`, standing in for
`pd.to_datetime` in concrete evaluations (the accepted formats of the library
parser are implementation-defined; theorems quantify over the parser). -/
def parseDateIso (s : String) : Option Int :=
  match (splitDash s.toList).map digitsToNat with
  | [some yn, some mn, some dn] =>
    if 1 ≤ mn ∧ mn ≤ 12 ∧ 1 ≤ dn ∧ dn ≤ 31 then
      some ((yn : Int) * 10000 + mn * 100 + dn)
    else none
  | _ => none

/-! ### Normalized records and aggregation functions

Aggregations operate over the dataframe the charts consume: every record has
a parsed date and a numeric engagement count. -/

/-- A record of the normalized dataset as the aggregation functions consume
it: a parsed date and a numeric engagement count together with the four
category fields. -/
structure Record where
  date : Int
  platform : String
  sentiment : String
  location : String
  engagements : Int
  media_type : String
deriving DecidableEq

/-- The descending-by-value comparison used by `sort_values(ascending=False)`
and `nlargest`: `a` comes no later than `b` when `a`'s total is at least
`b`'s. -/
def valGe (a b : String × Int) : Prop := b.2 ≤ a.2

instance : DecidableRel valGe := fun a b => inferInstanceAs (Decidable (b.2 ≤ a.2))

instance : IsTotal (String × Int) valGe := ⟨fun a b => le_total b.2 a.2⟩

instance : IsTrans (String × Int) valGe := ⟨fun _ _ _ h1 h2 => le_trans h2 h1⟩

/-- Lexicographic comparison of character lists by code point. -/
def charListLe : List Char → List Char → Bool
  | [], _ => true
  | _ :: _, [] => false
  | c :: cs, d :: ds => if c = d then charListLe cs ds else decide (c < d)

/-- Lexicographic order on strings (the order `groupby` sorts its keys by). -/
def strLe (a b : String) : Prop := charListLe a.toList b.toList = true

instance : DecidableRel strLe := fun a b =>
  inferInstanceAs (Decidable (charListLe a.toList b.toList = true))

theorem charListLe_total : ∀ x y : List Char, charListLe x y = true ∨ charListLe y x = true
  | [], _ => Or.inl rfl
  | _ :: _, [] => Or.inr rfl
  | c :: cs, d :: ds => by
    by_cases h : c = d
    · subst h
      simpa [charListLe] using charListLe_total cs ds
    · have h' : d ≠ c := fun hdc => h hdc.symm
      rcases lt_or_gt_of_ne h with hlt | hgt
      · exact Or.inl (by simp [charListLe, h, hlt])
      · exact Or.inr (by simp [charListLe, h', hgt])

theorem charListLe_trans :
    ∀ x y z : List Char, charListLe x y = true → charListLe y z = true →
      charListLe x z = true
  | [], _, _, _, _ => rfl
  | _ :: _, [], _, hxy, _ => by simp [charListLe] at hxy
  | _ :: _, _ :: _, [], _, hyz => by simp [charListLe] at hyz
  | c :: cs, d :: ds, e :: es, hxy, hyz => by
    by_cases hcd : c = d <;> by_cases hde : d = e
    · subst hcd; subst hde
      simp only [charListLe, if_pos rfl] at hxy hyz ⊢
      exact charListLe_trans cs ds es hxy hyz
    · subst hcd
      simpa [charListLe, hde] using hyz
    · subst hde
      simpa [charListLe, hcd] using hxy
    · simp only [charListLe, if_neg hcd, decide_eq_true_eq] at hxy
      simp only [charListLe, if_neg hde, decide_eq_true_eq] at hyz
      have hce : c < e := lt_trans hxy hyz
      have : c ≠ e := ne_of_lt hce
      simp [charListLe, this, hce]

instance : IsTotal String strLe := ⟨fun a b => charListLe_total a.toList b.toList⟩

instance : IsTrans String strLe :=
  ⟨fun a b c => charListLe_trans a.toList b.toList c.toList⟩

/-- The group keys of `df.groupby(col)`: the distinct values of the column,
sorted ascending (pandas `groupby` sorts group keys by default; the sorted
result does not depend on which duplicate of a key is kept). -/
def groupKeys (f : Record → String) (ds : List Record) : List String :=
  List.insertionSort strLe (ds.map f).dedup

/-- `df.groupby(col)['engagements'].sum()`: one `(key, total)` pair per
distinct key, keys ascending, each total the sum of the engagements of the
records in that group. -/
def totalsBy (f : Record → String) (ds : List Record) : List (String × Int) :=
  (groupKeys f ds).map fun k =>
    (k, ((ds.filter fun r => decide (f r = k)).map Record.engagements).sum)

/-- `platform_engagements` (line 561):
`df.groupby('platform')['engagements'].sum().sort_values(ascending=False)`. -/
def platform_engagements (ds : List Record) : List (String × Int) :=
  List.insertionSort valGe (totalsBy Record.platform ds)

/-- The bound used by the top-locations chart (line 583, `nlargest(5)`). -/
def defaultTopN : Nat := 5

/-- The full per-location totals, ordered as `nlargest` orders them: a
stable descending-by-value sort of the key-ascending groupby output. -/
def locationTotalsSorted (ds : List Record) : List (String × Int) :=
  List.insertionSort valGe (totalsBy Record.location ds)

/-- `location_engagements` (line 583):
`df.groupby('location')['engagements'].sum().nlargest(n)`.  `nlargest` with
its default `keep='first'` is a stable descending-by-value sort of the
key-ascending groupby output, truncated to `n` entries. -/
def location_engagements (n : Nat) (ds : List Record) : List (String × Int) :=
  (locationTotalsSorted ds).take n

/-- Descending order on totals with deterministic ties: at equal totals the
lexicographically smaller name comes first. -/
def lexGe (a b : String × Int) : Prop :=
  b.2 < a.2 ∨ (a.2 = b.2 ∧ strLe a.1 b.1)

/-- Minimum of a list of dates (`df['date'].min()`); the base value is never
consulted on the empty dataset, where no record exists to filter. -/
def minD : List Int → Int
  | [] => 0
  | [x] => x
  | x :: y :: xs => min x (minD (y :: xs))

/-- Maximum of a list of dates (`df['date'].max()`). -/
def maxD : List Int → Int
  | [] => 0
  | [x] => x
  | x :: y :: xs => max x (maxD (y :: xs))

/-- The sidebar filter block (lines 411-462).  The date range always applies
(when none is supplied the widget defaults to the dataset's min/max dates,
line 412); each categorical filter applies only when its selection list is
non-empty (`if selected_...:`), via `isin` membership.  The filters apply in
sequence: date range, platform, sentiment, media type, location. -/
def applyFilters (ds : List Record) (dateRange : Option (Int × Int))
    (platforms sentiments mediaTypes locations : List String) : List Record :=
  let s := (dateRange.map Prod.fst).getD (minD (ds.map Record.date))
  let e := (dateRange.map Prod.snd).getD (maxD (ds.map Record.date))
  let d1 := ds.filter fun r => decide (s ≤ r.date ∧ r.date ≤ e)
  let d2 := if platforms.isEmpty then d1
    else d1.filter fun r => decide (r.platform ∈ platforms)
  let d3 := if sentiments.isEmpty then d2
    else d2.filter fun r => decide (r.sentiment ∈ sentiments)
  let d4 := if mediaTypes.isEmpty then d3
    else d3.filter fun r => decide (r.media_type ∈ mediaTypes)
  if locations.isEmpty then d4
  else d4.filter fun r => decide (r.location ∈ locations)

/-- A single character of a header variant against the canonical character it
stands for: an underscore may be written as an underscore or a space, and any
other canonical character may be written in either case (such a character is
itself not whitespace and not a space). -/
def VariantChar (c d : Char) : Prop :=
  (d = '_' ∧ (c = '_' ∨ c = ' ')) ∨ (¬ c.isWhitespace ∧ c ≠ ' ' ∧ c.toLower = d)

instance : DecidableRel VariantChar := fun c d => by
  unfold VariantChar
  infer_instance

/-! ### Concrete tables for evaluations -/

/-- A row whose cells all parse (the first row of the spec's end-to-end
scenario, §8). -/
def exRowGood : RawRow :=
  { dateCell := "2023-03-10", platformCell := "Facebook", sentimentCell := "Positive",
    locationCell := "Dubai", engCell := some (CellVal.num 100), mediaTypeCell := "Image" }

/-- A row whose date cell does not parse and whose engagements cell is
missing (the second row of the spec's end-to-end scenario, §8). -/
def exRowBad : RawRow :=
  { dateCell := "bad-date", platformCell := "Instagram", sentimentCell := "Negative",
    locationCell := "Cairo", engCell := none, mediaTypeCell := "Video" }

/-- Headers of the spec's example uploads. -/
def exHeaders : List String :=
  ["Date", "Platform", "Sentiment", "Location", "Engagements", "Media Type"]

/-- The spec's two-row end-to-end table: one good row, one bad-date row. -/
def exTableMixed : RawTable := { headers := exHeaders, rows := [exRowGood, exRowBad] }

/-- A one-row table whose only date is unparseable. -/
def exTableAllBad : RawTable := { headers := exHeaders, rows := [exRowBad] }

/-- A one-row table whose engagements cell holds non-numeric text. -/
def exTableStr : RawTable :=
  { headers := exHeaders,
    rows := [{ exRowGood with engCell := some (CellVal.str "abc") }] }

/-- A two-row table whose second row is missing its engagements cell. -/
def exTableFill : RawTable :=
  { headers := exHeaders, rows := [exRowGood, { exRowGood with engCell := none }] }

/-- A table missing four of the six required columns. -/
def exTableNoCols : RawTable := { headers := ["Date", "Platform"], rows := [exRowGood] }

/-- A normalized record whose location is "Zed". -/
def exRecZed : Record :=
  { date := 0, platform := "Facebook", sentiment := "Positive", location := "Zed",
    engagements := 10, media_type := "Image" }

/-- A normalized record whose location is "Alpha", tying with "Zed". -/
def exRecAlpha : Record := { exRecZed with location := "Alpha" }

/-- A dataset in which "Zed" is encountered first and ties with "Alpha". -/
def exTieDs : List Record := [exRecZed, exRecAlpha]

/-- A normalized Facebook record, for the filter evaluations. -/
def exRecFB : Record :=
  { date := 5, platform := "Facebook", sentiment := "Positive", location := "Dubai",
    engagements := 100, media_type := "Image" }

/-- A normalized Instagram record, for the filter evaluations. -/
def exRecIG : Record :=
  { date := 6, platform := "Instagram", sentiment := "Negative", location := "Cairo",
    engagements := 50, media_type := "Video" }

/-! ### Cleaning lemmas -/

theorem convertDates_map_snd (pd : String → Option Int) :
    ∀ {rows : List RawRow} {l : List (Int × RawRow)},
      convertDates pd rows = some l → l.map Prod.snd = rows := by
  intro rows
  induction rows with
  | nil =>
    intro l h
    simp only [convertDates, Option.some.injEq] at h
    subst h
    rfl
  | cons r rs ih =>
    intro l h
    simp only [convertDates] at h
    split at h
    · rename_i d l' hpd hcv
      cases h
      simpa using ih hcv
    · exact absurd h (by simp)

theorem convertDates_eq_none (pd : String → Option Int) :
    ∀ {rows : List RawRow} {r : RawRow}, r ∈ rows → pd r.dateCell = none →
      convertDates pd rows = none := by
  intro rows
  induction rows with
  | nil => intro r h; exact absurd h (List.not_mem_nil r)
  | cons a rs ih =>
    intro r hmem hpd
    simp only [convertDates]
    rcases List.mem_cons.mp hmem with rfl | hmem'
    · rw [hpd]
    · rw [ih hmem' hpd]
      split
      · rename_i d l h1 h2
        exact absurd h2 (by simp)
      · rfl

theorem convertDates_exists_of_all (pd : String → Option Int) :
    ∀ {rows : List RawRow}, (∀ r ∈ rows, (pd r.dateCell).isSome) →
      ∃ l, convertDates pd rows = some l := by
  intro rows
  induction rows with
  | nil => intro _; exact ⟨[], rfl⟩
  | cons r rs ih =>
    intro hall
    obtain ⟨d, hd⟩ := Option.isSome_iff_exists.mp (hall r (List.mem_cons_self r rs))
    obtain ⟨l, hl⟩ := ih fun x hx => hall x (List.mem_cons_of_mem r hx)
    exact ⟨(d, r) :: l, by simp only [convertDates]; rw [hd, hl]⟩

/-- When the required columns are present and some row's date fails to
parse, the whole cleaning run fails with `DateError` (no row-wise drop). -/
theorem clean_dateError_of_bad (pd : String → Option Int) (t : RawTable)
    (hcols : (missingOf t).isEmpty) (hbad : ∃ r ∈ t.rows, pd r.dateCell = none) :
    clean pd t = .error CleaningError.DateError := by
  obtain ⟨r, hmem, hpd⟩ := hbad
  unfold clean
  rw [if_pos hcols, convertDates_eq_none pd hmem hpd]

/-- When the required columns are present and every row's date parses, the
cleaning run succeeds, keeping every row. -/
theorem clean_ok_of_all (pd : String → Option Int) (t : RawTable)
    (hcols : (missingOf t).isEmpty) (hall : ∀ r ∈ t.rows, (pd r.dateCell).isSome) :
    ∃ ds k, clean pd t = .ok (ds, k) ∧ ds.length = t.rows.length := by
  obtain ⟨l, hl⟩ := convertDates_exists_of_all pd hall
  refine ⟨l.map fillRow, (l.filter fun dr => dr.2.engCell.isNone).length, ?_, ?_⟩
  · unfold clean
    rw [if_pos hcols, hl]
  · have hsnd := convertDates_map_snd pd hl
    calc (l.map fillRow).length = l.length := List.length_map l fillRow
      _ = (l.map Prod.snd).length := (List.length_map l Prod.snd).symm
      _ = t.rows.length := by rw [hsnd]

/-- Anatomy of a successful cleaning run: the dataset and the fill count in
terms of the date-converted rows. -/
theorem clean_ok_elim (pd : String → Option Int) (t : RawTable)
    (ds : List CleanRow) (k : Nat) (h : clean pd t = .ok (ds, k)) :
    ∃ l, convertDates pd t.rows = some l ∧ ds = l.map fillRow ∧
      k = (l.filter fun dr => dr.2.engCell.isNone).length := by
  unfold clean at h
  by_cases hm : (missingOf t).isEmpty
  · rw [if_pos hm] at h
    cases hcv : convertDates pd t.rows with
    | none => rw [hcv] at h; exact absurd h (by simp)
    | some l =>
      rw [hcv] at h
      simp only [Except.ok.injEq, Prod.mk.injEq] at h
      exact ⟨l, rfl, h.1.symm, h.2.symm⟩
  · rw [if_neg hm] at h
    exact absurd h (by simp)

/-! ### Claims about the cleaning pipeline -/

/-- Claim C10: whenever cleaning succeeds (required columns present and the
date column converts), the cleaned dataset contains exactly as many records
as the raw input table — no cleaning step removes an individual row. -/
theorem clean_preserves_row_count (pd : String → Option Int) (t : RawTable)
    (ds : List CleanRow) (k : Nat) (h : clean pd t = .ok (ds, k)) :
    ds.length = t.rows.length := by
  obtain ⟨l, hcv, hds, -⟩ := clean_ok_elim pd t ds k h
  subst hds
  have hsnd := convertDates_map_snd pd hcv
  calc (l.map fillRow).length = l.length := List.length_map l fillRow
    _ = (l.map Prod.snd).length := (List.length_map l Prod.snd).symm
    _ = t.rows.length := by rw [hsnd]

/-- Witness for claim C10 at the concrete two-row table with one missing
engagements cell: cleaning succeeds and keeps both rows. -/
theorem clean_preserves_row_count_witness :
    ([{ date := 20230310, platform := "Facebook", sentiment := "Positive",
        location := "Dubai", engagements := CellVal.num 100, media_type := "Image" },
      { date := 20230310, platform := "Facebook", sentiment := "Positive",
        location := "Dubai", engagements := CellVal.num 0, media_type := "Image" }] :
      List CleanRow).length = exTableFill.rows.length :=
  clean_preserves_row_count parseDateIso exTableFill
    [{ date := 20230310, platform := "Facebook", sentiment := "Positive",
       location := "Dubai", engagements := CellVal.num 100, media_type := "Image" },
     { date := 20230310, platform := "Facebook", sentiment := "Positive",
       location := "Dubai", engagements := CellVal.num 0, media_type := "Image" }]
    1 rfl

/-- Claim C1 counterexample: on the spec's own two-row end-to-end table the
bad-date row is not dropped with the good row retained (which would give the
one-record dataset with drop count 1); instead the whole cleaning run fails
(`pd.to_datetime` raises and the dataframe is invalidated), producing no
output dataset at all. -/
theorem clean_row_drop_counterexample :
    clean parseDateIso exTableMixed = .error CleaningError.DateError ∧
    clean parseDateIso exTableMixed ≠
      .ok ([{ date := 20230310, platform := "Facebook", sentiment := "Positive",
              location := "Dubai", engagements := CellVal.num 100,
              media_type := "Image" }], 1) := by
  refine ⟨rfl, fun h => ?_⟩
  have e : clean parseDateIso exTableMixed = .error CleaningError.DateError := rfl
  exact Except.noConfusion (e.symm.trans h)

/-- Claim C1 (amended): the date step is all-or-nothing.  With the required
columns present, any unparseable date invalidates the whole dataset
(`DateError`, no drop count is reported), and when every date parses the
cleaning run succeeds with every row retained. -/
theorem clean_date_failure_invalidates (pd : String → Option Int) (t : RawTable)
    (hcols : (missingOf t).isEmpty) :
    ((∃ r ∈ t.rows, pd r.dateCell = none) →
      clean pd t = .error CleaningError.DateError) ∧
    ((∀ r ∈ t.rows, (pd r.dateCell).isSome) →
      ∃ ds k, clean pd t = .ok (ds, k) ∧ ds.length = t.rows.length) :=
  ⟨fun hbad => clean_dateError_of_bad pd t hcols hbad,
   fun hall => clean_ok_of_all pd t hcols hall⟩

/-- Witness for the amended claim C1 at the concrete two-row table. -/
theorem clean_date_failure_invalidates_witness :
    clean parseDateIso exTableMixed = Except.error CleaningError.DateError :=
  (clean_date_failure_invalidates parseDateIso exTableMixed (by decide)).1
    ⟨exRowBad, by decide, by decide⟩

/-- Claim C3 counterexample: with every date unparseable the code fails with
the date-conversion error, not with the spec's `EmptyAfterCleaning` state
(which the code never produces). -/
theorem clean_allbad_counterexample :
    clean parseDateIso exTableAllBad = .error CleaningError.DateError ∧
    clean parseDateIso exTableAllBad ≠ .error CleaningError.EmptyAfterCleaning := by
  refine ⟨rfl, fun h => ?_⟩
  have e : clean parseDateIso exTableAllBad = .error CleaningError.DateError := rfl
  have h2 : CleaningError.DateError = CleaningError.EmptyAfterCleaning :=
    Except.error.inj (e.symm.trans h)
  exact CleaningError.noConfusion h2

/-- Claim C3 (amended): if every row's date is unparseable (required columns
present, at least one row), cleaning fails — with the date-conversion error —
and never succeeds with a zero-length dataset. -/
theorem clean_allbad_fails (pd : String → Option Int) (t : RawTable)
    (hcols : (missingOf t).isEmpty) (hne : t.rows ≠ [])
    (hall : ∀ r ∈ t.rows, pd r.dateCell = none) :
    clean pd t = .error CleaningError.DateError ∧
    ∀ out, clean pd t ≠ Except.ok out := by
  obtain ⟨r, hr⟩ := List.exists_mem_of_ne_nil t.rows hne
  have e := clean_dateError_of_bad pd t hcols ⟨r, hr, hall r hr⟩
  exact ⟨e, fun out h => Except.noConfusion (e.symm.trans h)⟩

/-- Witness for the amended claim C3 at the one-row all-bad table. -/
theorem clean_allbad_fails_witness :
    clean parseDateIso exTableAllBad = Except.error CleaningError.DateError :=
  (clean_allbad_fails parseDateIso exTableAllBad (by decide) (by decide)
    (by decide)).1

/-- Claim C2 counterexample: a present but non-numeric engagements cell is
not coerced to 0 — `fillna(0)` leaves it as text — and the reported fill
count stays 0 although one row has a non-numeric cell. -/
theorem clean_eng_counterexample :
    clean parseDateIso exTableStr =
      .ok ([{ date := 20230310, platform := "Facebook", sentiment := "Positive",
              location := "Dubai", engagements := CellVal.str "abc",
              media_type := "Image" }], 0) ∧
    CellVal.str "abc" ≠ CellVal.num 0 :=
  ⟨rfl, by decide⟩

/-- Claim C2 (amended): on a successful cleaning run only missing
engagement cells are filled with 0 — the fill count equals the number of
missing cells, rows are kept, and every present cell (numeric or not) passes
through unchanged. -/
theorem clean_fill_missing_only (pd : String → Option Int) (t : RawTable)
    (ds : List CleanRow) (k : Nat) (h : clean pd t = .ok (ds, k)) :
    k = (t.rows.filter fun r => r.engCell.isNone).length ∧
    ds.map CleanRow.engagements =
      t.rows.map fun r => r.engCell.getD (CellVal.num 0) := by
  obtain ⟨l, hcv, hds, hk⟩ := clean_ok_elim pd t ds k h
  have hsnd := convertDates_map_snd pd hcv
  constructor
  · rw [hk, ← hsnd]
    simp only [← List.countP_eq_length_filter, List.countP_map]
    rfl
  · rw [hds, ← hsnd, List.map_map, List.map_map]
    rfl

/-- Witness for the amended claim C2 at the concrete two-row table with one
missing engagements cell. -/
theorem clean_fill_missing_only_witness :
    (1 = (exTableFill.rows.filter fun r => r.engCell.isNone).length) ∧
    (([{ date := 20230310, platform := "Facebook", sentiment := "Positive",
         location := "Dubai", engagements := CellVal.num 100, media_type := "Image" },
       { date := 20230310, platform := "Facebook", sentiment := "Positive",
         location := "Dubai", engagements := CellVal.num 0, media_type := "Image" }] :
       List CleanRow).map CleanRow.engagements =
      exTableFill.rows.map fun r => r.engCell.getD (CellVal.num 0)) :=
  clean_fill_missing_only parseDateIso exTableFill
    [{ date := 20230310, platform := "Facebook", sentiment := "Positive",
       location := "Dubai", engagements := CellVal.num 100, media_type := "Image" },
     { date := 20230310, platform := "Facebook", sentiment := "Positive",
       location := "Dubai", engagements := CellVal.num 0, media_type := "Image" }]
    1 rfl

/-- Claim C8: when one or more required columns are missing after header
normalization, clean fails with `MissingColumns` carrying exactly the
missing canonical names, and produces no dataset. -/
theorem clean_missing_columns (pd : String → Option Int) (t : RawTable)
    (h : missingOf t ≠ []) :
    clean pd t = .error (CleaningError.MissingColumns (missingOf t)) ∧
    ∀ c, c ∈ missingOf t ↔ (c ∈ requiredColumns ∧ c ∉ normalizedHeaders t) := by
  constructor
  · unfold clean
    have hne : ¬ (missingOf t).isEmpty := by simpa [List.isEmpty_iff] using h
    rw [if_neg hne]
  · intro c
    simp [missingOf, List.mem_filter]

/-! ### Aggregation lemmas -/

theorem sum_ite_mem (a : String) (c : Int) :
    ∀ keys : List String, keys.Nodup → a ∈ keys →
      (keys.map fun k => if a = k then c else 0).sum = c := by
  intro keys
  induction keys with
  | nil => intro _ h; exact absurd h (List.not_mem_nil a)
  | cons k ks ih =>
    intro hnd hmem
    rcases List.mem_cons.mp hmem with rfl | hmem'
    · have hnotin : a ∉ ks := (List.nodup_cons.mp hnd).1
      have hz : (ks.map fun k' => if a = k' then c else 0).sum = 0 := by
        apply List.sum_eq_zero
        intro x hx
        obtain ⟨k', hk', hxe⟩ := List.mem_map.mp hx
        have : a ≠ k' := fun he => hnotin (he ▸ hk')
        simpa [this] using hxe.symm
      simp [hz]
    · have hne : a ≠ k := fun he => (List.nodup_cons.mp hnd).1 (he ▸ hmem')
      simp only [List.map_cons, List.sum_cons, if_neg hne, zero_add]
      exact ih (List.nodup_cons.mp hnd).2 hmem'

/-- Partitioning a dataset into per-key buckets preserves the engagement
sum, provided the keys are distinct and cover every record. -/
theorem sum_buckets (f : Record → String) :
    ∀ (ds : List Record) (keys : List String), keys.Nodup →
      (∀ r ∈ ds, f r ∈ keys) →
      (keys.map fun k =>
        ((ds.filter fun r => decide (f r = k)).map Record.engagements).sum).sum
        = (ds.map Record.engagements).sum := by
  intro ds
  induction ds with
  | nil => intro keys _ _; simp
  | cons r rs ih =>
    intro keys hnd hcov
    have hcov' : ∀ x ∈ rs, f x ∈ keys := fun x hx => hcov x (List.mem_cons_of_mem _ hx)
    have hr : f r ∈ keys := hcov r (List.mem_cons_self r rs)
    have hsplit : ∀ k : String,
        ((List.filter (fun x => decide (f x = k)) (r :: rs)).map Record.engagements).sum
          = (if f r = k then r.engagements else 0)
            + ((rs.filter fun x => decide (f x = k)).map Record.engagements).sum := by
      intro k
      by_cases h : f r = k
      · simp [List.filter_cons, h]
      · simp [List.filter_cons, h]
    simp only [hsplit, List.sum_map_add]
    rw [sum_ite_mem (f r) r.engagements keys hnd hr, ih keys hnd hcov']
    simp

theorem groupKeys_nodup (f : Record → String) (ds : List Record) :
    (groupKeys f ds).Nodup :=
  (List.perm_insertionSort strLe (ds.map f).dedup).nodup_iff.mpr
    (List.nodup_dedup (ds.map f))

theorem mem_groupKeys (f : Record → String) (ds : List Record) (r : Record)
    (hr : r ∈ ds) : f r ∈ groupKeys f ds := by
  have h1 : f r ∈ (ds.map f).dedup :=
    List.mem_dedup.mpr (List.mem_map_of_mem f hr)
  exact (List.perm_insertionSort strLe (ds.map f).dedup).mem_iff.mpr h1

/-- The totals column of a groupby-sum sums to the whole engagement sum. -/
theorem totalsBy_sum (f : Record → String) (ds : List Record) :
    ((totalsBy f ds).map Prod.snd).sum = (ds.map Record.engagements).sum := by
  unfold totalsBy
  rw [List.map_map]
  exact sum_buckets f ds (groupKeys f ds) (groupKeys_nodup f ds)
    (fun r hr => mem_groupKeys f ds r hr)

/-! ### Claims about the aggregation functions -/

/-- Claim C5: `platform_engagements` is sorted by descending total, and the
sum of the per-platform totals equals the sum of the engagements over the
whole dataset. -/
theorem platformTotals_spec (ds : List Record) :
    List.Sorted valGe (platform_engagements ds) ∧
    ((platform_engagements ds).map Prod.snd).sum = (ds.map Record.engagements).sum := by
  constructor
  · exact List.sorted_insertionSort valGe (totalsBy Record.platform ds)
  · have hperm : List.Perm (platform_engagements ds) (totalsBy Record.platform ds) :=
      List.perm_insertionSort valGe (totalsBy Record.platform ds)
    rw [(hperm.map Prod.snd).sum_eq]
    exact totalsBy_sum Record.platform ds

theorem lexGe_trans : ∀ a b c : String × Int, lexGe a b → lexGe b c → lexGe a c := by
  intro a b c hab hbc
  rcases hab with hab | ⟨hab1, hab2⟩ <;> rcases hbc with hbc | ⟨hbc1, hbc2⟩
  · exact Or.inl (lt_trans hbc hab)
  · exact Or.inl (hbc1 ▸ hab)
  · exact Or.inl (hab1 ▸ hbc)
  · exact Or.inr ⟨hab1.trans hbc1,
      charListLe_trans a.1.toList b.1.toList c.1.toList hab2 hbc2⟩

/-- Inserting an element whose key lies strictly before every key of a
lex-sorted list, by descending value, keeps the list lex-sorted. -/
theorem sorted_lexGe_orderedInsert (a : String × Int) :
    ∀ l, List.Sorted lexGe l → (∀ b ∈ l, strLe a.1 b.1 ∧ a.1 ≠ b.1) →
      List.Sorted lexGe (List.orderedInsert valGe a l) := by
  intro l
  induction l with
  | nil => intro _ _; exact List.sorted_singleton a
  | cons b t ih =>
    intro hs hk
    simp only [List.orderedInsert]
    by_cases h : valGe a b
    · rw [if_pos h]
      have hab : lexGe a b := by
        rcases lt_or_eq_of_le h with hlt | heq
        · exact Or.inl hlt
        · exact Or.inr ⟨heq.symm, (hk b (List.mem_cons_self b t)).1⟩
      refine List.sorted_cons.mpr ⟨?_, hs⟩
      intro c hc
      rcases List.mem_cons.mp hc with rfl | hc'
      · exact hab
      · exact lexGe_trans a b c hab (List.rel_of_sorted_cons hs c hc')
    · rw [if_neg h]
      have hba : a.2 < b.2 := lt_of_not_le h
      refine List.sorted_cons.mpr ⟨?_, ih hs.of_cons
        (fun x hx => hk x (List.mem_cons_of_mem b hx))⟩
      intro c hc
      rcases (List.mem_orderedInsert valGe).mp hc with rfl | hc'
      · exact Or.inl hba
      · exact List.rel_of_sorted_cons hs c hc'

/-- The stable descending-by-value sort of a list whose keys are strictly
ascending is lex-sorted: ties end up in ascending key order. -/
theorem sorted_lexGe_insertionSort :
    ∀ l : List (String × Int),
      List.Pairwise (fun a b => strLe a.1 b.1 ∧ a.1 ≠ b.1) l →
      List.Sorted lexGe (List.insertionSort valGe l) := by
  intro l
  induction l with
  | nil => intro _; exact List.sorted_nil
  | cons a t ih =>
    intro hp
    obtain ⟨h1, h2⟩ := List.pairwise_cons.mp hp
    simp only [List.insertionSort]
    exact sorted_lexGe_orderedInsert a (List.insertionSort valGe t) (ih h2)
      fun b hb => h1 b ((List.perm_insertionSort valGe t).mem_iff.mp hb)

/-- The groupby-sum output has strictly ascending keys. -/
theorem totalsBy_key_pairwise (f : Record → String) (ds : List Record) :
    List.Pairwise (fun a b : String × Int => strLe a.1 b.1 ∧ a.1 ≠ b.1)
      (totalsBy f ds) := by
  unfold totalsBy
  rw [List.pairwise_map]
  have hsorted : List.Sorted strLe (groupKeys f ds) :=
    List.sorted_insertionSort strLe (ds.map f).dedup
  have hnd : (groupKeys f ds).Nodup := groupKeys_nodup f ds
  exact hsorted.and hnd

/-- Claim C4 counterexample: two locations tie; the first encountered in
the input is "Zed", yet `nlargest(1)` returns "Alpha" — the tie at the
cutoff is broken by the sorted group-key order, not by first-encountered
input order. -/
theorem topLocations_tie_counterexample :
    location_engagements 1 exTieDs = [("Alpha", 10)] ∧
    exTieDs.map Record.location = ["Zed", "Alpha"] ∧
    ("Alpha" : String) ≠ "Zed" := by decide

/-- Claim C4 (amended): `location_engagements n ds` returns at most n pairs,
sorted by descending total with ties at equal totals ordered by ascending
location name (the sorted group-key order, not first-encountered input
order), and no location whose total exceeds a returned one is excluded. -/
theorem topLocations_spec (n : Nat) (ds : List Record) :
    (location_engagements n ds).length ≤ n ∧
    List.Sorted lexGe (location_engagements n ds) ∧
    ∀ q ∈ locationTotalsSorted ds, q ∉ location_engagements n ds →
      ∀ p ∈ location_engagements n ds, q.2 ≤ p.2 := by
  refine ⟨List.length_take_le n (locationTotalsSorted ds), ?_, ?_⟩
  · have hfull : List.Sorted lexGe (locationTotalsSorted ds) :=
      sorted_lexGe_insertionSort _ (totalsBy_key_pairwise Record.location ds)
    exact List.Pairwise.sublist (List.take_sublist n (locationTotalsSorted ds)) hfull
  · intro q hq hqn p hp
    have hval : List.Pairwise valGe (locationTotalsSorted ds) :=
      List.sorted_insertionSort valGe (totalsBy Record.location ds)
    have hq' : q ∈ (locationTotalsSorted ds).drop n := by
      have hsplit := List.take_append_drop n (locationTotalsSorted ds)
      rcases List.mem_append.mp (hsplit ▸ hq) with h | h
      · exact absurd h hqn
      · exact h
    rw [← List.take_append_drop n (locationTotalsSorted ds)] at hval
    exact (List.pairwise_append.mp hval).2.2 p hp q hq'

theorem minD_le : ∀ l : List Int, ∀ x ∈ l, minD l ≤ x
  | [], x, hx => absurd hx (List.not_mem_nil x)
  | [a], x, hx => by
    rcases List.mem_singleton.mp hx with rfl
    exact le_refl (minD [x])
  | a :: b :: t, x, hx => by
    rcases List.mem_cons.mp hx with rfl | hx'
    · exact min_le_left x (minD (b :: t))
    · exact le_trans (min_le_right a (minD (b :: t))) (minD_le (b :: t) x hx')

theorem le_maxD : ∀ l : List Int, ∀ x ∈ l, x ≤ maxD l
  | [], x, hx => absurd hx (List.not_mem_nil x)
  | [a], x, hx => by
    rcases List.mem_singleton.mp hx with rfl
    exact le_refl (maxD [x])
  | a :: b :: t, x, hx => by
    rcases List.mem_cons.mp hx with rfl | hx'
    · exact le_max_left x (maxD (b :: t))
    · exact le_trans (le_maxD (b :: t) x hx') (le_max_right a (maxD (b :: t)))

/-- Claim C6: with no date range and empty selection lists, the filter
block passes every record through — `applyFilters` is the identity. -/
theorem applyFilters_identity (ds : List Record) :
    applyFilters ds none [] [] [] [] = ds := by
  have h1 : ∀ r ∈ ds,
      decide (minD (ds.map Record.date) ≤ r.date ∧
        r.date ≤ maxD (ds.map Record.date)) = true := by
    intro r hr
    rw [decide_eq_true_eq]
    exact ⟨minD_le (ds.map Record.date) r.date (List.mem_map_of_mem Record.date hr),
      le_maxD (ds.map Record.date) r.date (List.mem_map_of_mem Record.date hr)⟩
  simp only [applyFilters, Option.map_none', Option.getD_none, List.isEmpty_nil,
    if_true]
  exact List.filter_eq_self.mpr h1

/-- Claim C7: with a supplied date range and non-empty allow-sets for all
four categorical fields, `applyFilters` returns exactly the records whose
date lies in the inclusive range and whose platform, sentiment, media type
and location each belong to the corresponding allow-set — the filters
combine by logical AND. -/
theorem applyFilters_conjunction (ds : List Record) (s e : Int)
    (platforms sentiments mediaTypes locations : List String)
    (hp : platforms ≠ []) (hs : sentiments ≠ []) (hm : mediaTypes ≠ [])
    (hl : locations ≠ []) :
    applyFilters ds (some (s, e)) platforms sentiments mediaTypes locations
      = ds.filter fun r => decide (s ≤ r.date ∧ r.date ≤ e ∧
          r.platform ∈ platforms ∧ r.sentiment ∈ sentiments ∧
          r.media_type ∈ mediaTypes ∧ r.location ∈ locations) := by
  have hp' : platforms.isEmpty = false := by simp [List.isEmpty_iff, hp]
  have hs' : sentiments.isEmpty = false := by simp [List.isEmpty_iff, hs]
  have hm' : mediaTypes.isEmpty = false := by simp [List.isEmpty_iff, hm]
  have hl' : locations.isEmpty = false := by simp [List.isEmpty_iff, hl]
  simp only [applyFilters, Option.map_some', Option.getD_some, hp', hs', hm', hl',
    Bool.false_eq_true, if_false, List.filter_filter]
  apply List.filter_congr
  intro r hr
  simp only [Bool.decide_and, Bool.and_assoc, Bool.and_comm, Bool.and_left_comm]

/-- Witness for claim C7: filtering the two-record dataset down to the
Facebook platform keeps only the Facebook record. -/
theorem applyFilters_conjunction_witness :
    applyFilters [exRecFB, exRecIG] (some (0, 10)) ["Facebook"]
        ["Positive", "Negative"] ["Image", "Video"] ["Dubai", "Cairo"]
      = [exRecFB, exRecIG].filter fun r => decide (0 ≤ r.date ∧ r.date ≤ 10 ∧
          r.platform ∈ ["Facebook"] ∧ r.sentiment ∈ ["Positive", "Negative"] ∧
          r.media_type ∈ ["Image", "Video"] ∧ r.location ∈ ["Dubai", "Cairo"]) :=
  applyFilters_conjunction [exRecFB, exRecIG] 0 10 ["Facebook"]
    ["Positive", "Negative"] ["Image", "Video"] ["Dubai", "Cairo"]
    (by decide) (by decide) (by decide) (by decide)

/-! ### Header normalization lemmas -/

theorem dropWhile_append_all (p : Char → Bool) :
    ∀ pre l : List Char, (∀ c ∈ pre, p c = true) →
      (pre ++ l).dropWhile p = l.dropWhile p := by
  intro pre
  induction pre with
  | nil => intro l _; rfl
  | cons c cs ih =>
    intro l hall
    have hc : p c = true := hall c (List.mem_cons_self c cs)
    simp only [List.cons_append, List.dropWhile_cons, hc, if_true]
    exact ih l fun x hx => hall x (List.mem_cons_of_mem c hx)

/-- Stripping a string of the form whitespace ++ core ++ whitespace, where
the core neither starts nor ends in whitespace, recovers the core. -/
theorem stripChars_sandwich (pre core post : List Char)
    (hpre : ∀ c ∈ pre, c.isWhitespace) (hpost : ∀ c ∈ post, c.isWhitespace)
    (hhead : ∀ c, core.head? = some c → c.isWhitespace = false)
    (hlast : ∀ c, core.getLast? = some c → c.isWhitespace = false) :
    stripChars (pre ++ core ++ post) = core := by
  unfold stripChars
  rw [List.append_assoc, dropWhile_append_all Char.isWhitespace pre (core ++ post) hpre]
  cases core with
  | nil =>
    rw [List.nil_append, List.dropWhile_eq_nil_iff.mpr fun c hc => hpost c hc]
    rfl
  | cons c cs =>
    have hc : c.isWhitespace = false := hhead c rfl
    rw [List.cons_append, List.dropWhile_cons, hc]
    simp only [Bool.false_eq_true, if_false]
    rw [← List.cons_append, List.reverse_append,
      dropWhile_append_all Char.isWhitespace post.reverse (c :: cs).reverse
        fun x hx => hpost x (List.mem_reverse.mp hx)]
    cases hrev : (c :: cs).reverse with
    | nil => exact absurd hrev (by simp)
    | cons d rest =>
      have hd : (c :: cs).getLast? = some d := by
        rw [← List.head?_reverse, hrev]
        rfl
      have hdws : d.isWhitespace = false := hlast d hd
      rw [List.dropWhile_cons, hdws]
      simp only [Bool.false_eq_true, if_false]
      rw [← hrev, List.reverse_reverse]

/-- Replacing spaces by underscores and lower-casing turns a variant core
into its canonical name. -/
theorem map_variant :
    ∀ core canonL : List Char, core.length = canonL.length →
      (∀ p ∈ core.zip canonL, VariantChar p.1 p.2) →
      ((core.map fun c => if c = ' ' then '_' else c).map Char.toLower) = canonL := by
  intro core
  induction core with
  | nil =>
    intro canonL hlen _
    cases canonL with
    | nil => rfl
    | cons d dt => simp at hlen
  | cons c cs ih =>
    intro canonL hlen hrel
    cases canonL with
    | nil => simp at hlen
    | cons d dt =>
      have hcd : VariantChar c d := hrel (c, d) (by simp)
      have htail := ih dt (by simpa using hlen)
        fun p hp => hrel p (by simp [hp])
      simp only [List.map_cons]
      rw [htail]
      have hhd : Char.toLower (if c = ' ' then '_' else c) = d := by
        rcases hcd with ⟨hd, hcc⟩ | ⟨hws, hsp, hlow⟩
        · subst hd
          rcases hcc with rfl | rfl <;> decide
        · rw [if_neg hsp]
          exact hlow
      rw [hhd]

theorem variant_getLast :
    ∀ core canonL : List Char, core.length = canonL.length →
      (∀ p ∈ core.zip canonL, VariantChar p.1 p.2) →
      ∀ c d, core.getLast? = some c → canonL.getLast? = some d →
        VariantChar c d := by
  intro core
  induction core with
  | nil => intro canonL _ _ c d hc _; simp at hc
  | cons x xs ih =>
    intro canonL hlen hrel c d hc hd
    cases canonL with
    | nil => simp at hlen
    | cons y ys =>
      cases xs with
      | nil =>
        cases ys with
        | nil =>
          have hcx : c = x := by simpa using hc.symm
          have hdy : d = y := by simpa using hd.symm
          subst hcx
          subst hdy
          exact hrel (c, d) (by simp)
        | cons y2 ys2 => simp at hlen
      | cons x2 xs2 =>
        cases ys with
        | nil => simp at hlen
        | cons y2 ys2 =>
          rw [List.getLast?_cons_cons] at hc hd
          exact ih (y2 :: ys2) (by simpa using hlen)
            (fun p hp => hrel p (List.mem_cons_of_mem (x, y) hp)) c d hc hd

/-- Normalization of a sandwiched variant core yields the canonical name,
provided the canonical name neither starts nor ends with an underscore. -/
theorem normalizeHeader_variant_core (canonL pre post core : List Char)
    (hpre : ∀ c ∈ pre, c.isWhitespace) (hpost : ∀ c ∈ post, c.isWhitespace)
    (hlen : core.length = canonL.length)
    (hrel : ∀ p ∈ core.zip canonL, VariantChar p.1 p.2)
    (hheadc : canonL.head? ≠ some '_') (hlastc : canonL.getLast? ≠ some '_') :
    normalizeHeader (String.mk (pre ++ core ++ post)) = String.mk canonL := by
  have hhead : ∀ c, core.head? = some c → c.isWhitespace = false := by
    intro c hcm
    cases core with
    | nil => exact absurd hcm (by simp)
    | cons c0 cs =>
      cases canonL with
      | nil => simp at hlen
      | cons d dt =>
        have hc0 : c = c0 := by simpa using hcm.symm
        subst hc0
        rcases hrel (c, d) (by simp) with ⟨hd, -⟩ | ⟨hws, -, -⟩
        · exact absurd (hd ▸ rfl) hheadc
        · exact Bool.eq_false_iff.mpr hws
  have hlast : ∀ c, core.getLast? = some c → c.isWhitespace = false := by
    intro c hcm
    cases hdl : canonL.getLast? with
    | none =>
      rw [List.getLast?_eq_none_iff] at hdl
      subst hdl
      simp at hlen
      subst hlen
      simp at hcm
    | some d =>
      rcases variant_getLast core canonL hlen hrel c d hcm hdl with
        ⟨hd, -⟩ | ⟨hws, -, -⟩
      · exact absurd (hd ▸ hdl) hlastc
      · exact Bool.eq_false_iff.mpr hws
  show String.mk _ = String.mk canonL
  rw [show (String.mk (pre ++ core ++ post)).toList = pre ++ core ++ post from rfl,
    stripChars_sandwich pre core post hpre hpost hhead hlast,
    map_variant core canonL hlen hrel]

/-- Claim C9: any header spelling that differs from a canonical name only
in letter case, spaces written for underscores, or surrounding whitespace
is mapped by normalization to that canonical name; and the required-column
check consults the normalized headers, so a table whose normalized headers
cover the six canonical names has nothing missing. -/
theorem normalizeHeader_variant (canon : String) (hc : canon ∈ requiredColumns)
    (pre post core : List Char)
    (hpre : ∀ c ∈ pre, c.isWhitespace) (hpost : ∀ c ∈ post, c.isWhitespace)
    (hlen : core.length = canon.toList.length)
    (hrel : ∀ p ∈ core.zip canon.toList, VariantChar p.1 p.2) :
    normalizeHeader (String.mk (pre ++ core ++ post)) = canon ∧
    ∀ t : RawTable, (∀ c ∈ requiredColumns, c ∈ normalizedHeaders t) →
      missingOf t = [] := by
  constructor
  · have hc' : canon = "date" ∨ canon = "platform" ∨ canon = "sentiment" ∨
        canon = "location" ∨ canon = "engagements" ∨ canon = "media_type" := by
      simpa [requiredColumns] using hc
    have hhead : canon.toList.head? ≠ some '_' := by
      rcases hc' with rfl | rfl | rfl | rfl | rfl | rfl <;> decide
    have hlast : canon.toList.getLast? ≠ some '_' := by
      rcases hc' with rfl | rfl | rfl | rfl | rfl | rfl <;> decide
    have h := normalizeHeader_variant_core canon.toList pre post core
      hpre hpost hlen hrel hhead hlast
    rwa [show String.mk canon.toList = canon from rfl] at h
  · intro t ht
    unfold missingOf
    rw [List.filter_eq_nil_iff]
    intro c hcm
    simp [ht c hcm]

/-- Witness for claim C9: the spelling " Media Type " (a case variant with
a space for the underscore and surrounding whitespace) normalizes to
`media_type`. -/
theorem normalizeHeader_variant_witness :
    normalizeHeader (String.mk ([' '] ++ "Media Type".toList ++ [' '])) =
      "media_type" :=
  (normalizeHeader_variant "media_type" (by decide) [' '] [' ']
    "Media Type".toList (by decide) (by decide) (by decide) (by decide)).1

/-- Witness for claim C8 at a table that keeps only the Date and Platform
columns. -/
theorem clean_missing_columns_witness :
    clean parseDateIso exTableNoCols =
      .error (CleaningError.MissingColumns
        ["sentiment", "location", "engagements", "media_type"]) := by
  have h := (clean_missing_columns parseDateIso exTableNoCols (by decide)).1
  rw [show missingOf exTableNoCols =
      ["sentiment", "location", "engagements", "media_type"] from by decide] at h
  exact h

end Ramadan
